import Mathlib

/-!
Shallow embedding of the spherical-harmonics evaluation core of the repository
(the component `SphericalHarmonicsVisualization`): the associated Legendre
polynomial evaluator `calculateLegendreP`, the spherical-harmonic value
`calculateYlm`, the recursive `factorial` helper, and the colormap
`valueToColor`.  JavaScript numbers are modelled as real numbers (for the
continuous arguments) and integers (for degree and order, which the callers
always pass as integers).  Loops are modelled as primitive recursion on the
iteration count, with the loop state passed explicitly.
-/

/-- Triple of hue, saturation and lightness: models the three arguments that
`valueToColor` passes to `THREE.Color().setHSL`. -/
@[ext]
structure HSL where
  hue : ℝ
  saturation : ℝ
  lightness : ℝ

/-- Seed loop of `calculateLegendreP` (`for i = 1..m`): starting from
`pmm = 1` and `fact = 1`, each iteration performs `pmm := pmm * (-fact * somx2)`
and `fact := fact + 2`.  `pmmAux somx2 n` is the pair `(pmm, fact)` after `n`
iterations. -/
noncomputable def pmmAux (somx2 : ℝ) : ℕ → ℝ × ℝ
  | 0 => (1, 1)
  | n + 1 =>
    let p := pmmAux somx2 n
    (p.1 * (-p.2 * somx2), p.2 + 2)

/-- Upward-recurrence loop of `calculateLegendreP` (`for ll = m+2..l`).  The
state is `(pmm, pmmp1, pll)`; iteration number `k` (counting from 0)
corresponds to loop variable `ll = m + 2 + k` and performs
`pll := (x*(2*ll-1)*pmmp1 - (ll+m-1)*pmm)/(ll-m); pmm := pmmp1; pmmp1 := pll`. -/
noncomputable def legendreLoop (x m : ℝ) (s : ℝ × ℝ × ℝ) : ℕ → ℝ × ℝ × ℝ
  | 0 => s
  | k + 1 =>
    let p := legendreLoop x m s k
    let ll : ℝ := m + 2 + k
    let pll := (x * (2 * ll - 1) * p.2.1 - (ll + m - 1) * p.1) / (ll - m)
    (p.2.1, pll, pll)

/-- Embedding of `calculateLegendreP l m x`: associated Legendre polynomial
`P_l^m(x)` computed by the seed product followed by the upward recurrence,
with the defensive `0` return for `m < 0` or `m > l`. -/
noncomputable def calculateLegendreP (l m : ℤ) (x : ℝ) : ℝ :=
  if m < 0 ∨ m > l then 0
  else if l = 0 then 1
  else
    let somx2 := Real.sqrt ((1 - x) * (1 + x))
    let pmm := (pmmAux somx2 m.toNat).1
    if l = m then pmm
    else
      let pmmp1 := x * (2 * (m : ℝ) + 1) * pmm
      if l = m + 1 then pmmp1
      else (legendreLoop x (m : ℝ) (pmm, pmmp1, 0) (l - m - 1).toNat).2.2

/-- The state `(pmm, pmmp1, 0)` that `calculateLegendreP` feeds into the
upward-recurrence loop: the seed `P_m^m` and the first step `P_{m+1}^m`. -/
noncomputable def legendreInit (m : ℤ) (x : ℝ) : ℝ × ℝ × ℝ :=
  ((pmmAux (Real.sqrt ((1 - x) * (1 + x))) m.toNat).1,
    x * (2 * (m : ℝ) + 1) * (pmmAux (Real.sqrt ((1 - x) * (1 + x))) m.toNat).1, 0)

/-- Embedding of the recursive `factorial` helper of the component:
`factorial n = 1` when `n ≤ 1` (including every negative argument) and
`n * factorial (n - 1)` otherwise. -/
noncomputable def factorial (n : ℤ) : ℝ :=
  if n ≤ 1 then 1 else (n : ℝ) * factorial (n - 1)
termination_by n.toNat
decreasing_by
  simp only [not_le] at *
  omega

/-- Embedding of `calculateYlm l m theta phi`: the real part of the spherical
harmonic used for colouring, with normalisation constant, Legendre factor at
`|m|`, azimuthal cosine, and the sign factor for negative `m`. -/
noncomputable def calculateYlm (l m : ℤ) (theta phi : ℝ) : ℝ :=
  let cosTheta := Real.cos theta
  let norm := Real.sqrt ((2 * (l : ℝ) + 1) * factorial (l - |m|) /
    (4 * Real.pi * factorial (l + |m|)))
  let legendre := calculateLegendreP l |m| cosTheta
  let real := Real.cos ((m : ℝ) * phi)
  let mSign : ℝ := if m < 0 then (if |m| % 2 = 0 then 1 else -1) else 1
  norm * legendre * real * mSign

/-- Embedding of `valueToColor`: clamp the input to `[-1, 1]`, renormalise to
`[0, 1]`, and produce the HSL triple passed to `setHSL`. -/
noncomputable def valueToColor (value : ℝ) : HSL :=
  let normalized := (max (-1) (min 1 value) + 1) / 2
  ⟨0.8 - normalized * 0.7, 0.8, 0.3 + normalized * 0.4⟩

/-- Unfolding lemma: for in-range `l ≥ m + 2` the function returns the `pll`
component of the loop state after `l - m - 1` iterations. -/
theorem calculateLegendreP_eq_loop (l m : ℤ) (x : ℝ) (hm : 0 ≤ m) (hl : m + 2 ≤ l) :
    calculateLegendreP l m x =
      (legendreLoop x (m : ℝ) (legendreInit m x) (l - m - 1).toNat).2.2 := by
  simp only [calculateLegendreP, legendreInit]
  rw [if_neg (by omega), if_neg (by omega), if_neg (by omega), if_neg (by omega)]

/-- C7: for every integer `l ≥ 0`, every integer `m` with `m < 0` or `m > l`,
and every real `x`, `calculateLegendreP l m x = 0` (the defensive guard). -/
theorem legendreP_out_of_range (l m : ℤ) (x : ℝ) (hl : 0 ≤ l) (h : m < 0 ∨ m > l) :
    calculateLegendreP l m x = 0 := by
  rw [calculateLegendreP, if_pos h]

/-- Witness for C7 at `l = 2`, `m = 3`, `x = 1/2`. -/
theorem legendreP_out_of_range_witness :
    (0 : ℤ) ≤ 2 ∧ ((3 : ℤ) < 0 ∨ (3 : ℤ) > 2) ∧ calculateLegendreP 2 3 (1/2) = 0 :=
  ⟨by decide, by decide, legendreP_out_of_range 2 3 (1/2) (by decide) (by decide)⟩

/-- C8: `valueToColor (-1)` is the HSL triple `(0.8, 0.8, 0.3)`,
`valueToColor 1` is `(0.1, 0.8, 0.7)`, and the saturation component is the
constant `0.8` for every input. -/
theorem valueToColor_extremes :
    valueToColor (-1) = ⟨0.8, 0.8, 0.3⟩ ∧ valueToColor 1 = ⟨0.1, 0.8, 0.7⟩ ∧
      ∀ v : ℝ, (valueToColor v).saturation = 0.8 := by
  refine ⟨?_, ?_, fun v => rfl⟩
  · have h : max (-1 : ℝ) (min 1 (-1)) = -1 := by norm_num
    simp only [valueToColor, h]
    ext <;> norm_num
  · have h : max (-1 : ℝ) (min 1 1) = 1 := by norm_num
    simp only [valueToColor, h]
    ext <;> norm_num

/-- C9: `valueToColor` clamps its input to `[-1, 1]`: any input `≥ 1` gives the
same color as `1`, any input `≤ -1` gives the same color as `-1`. -/
theorem valueToColor_clamps (v : ℝ) :
    (1 ≤ v → valueToColor v = valueToColor 1) ∧
      (v ≤ -1 → valueToColor v = valueToColor (-1)) := by
  constructor
  · intro h
    have h1 : min 1 v = 1 := min_eq_left h
    simp only [valueToColor, h1, min_self]
  · intro h
    have h1 : min 1 v = v := min_eq_right (h.trans (by norm_num))
    have h2 : max (-1 : ℝ) v = -1 := max_eq_left h
    have h3 : max (-1 : ℝ) (min 1 (-1)) = -1 := by norm_num
    simp only [valueToColor, h1, h2, h3]

/-- Witness for C9: the spec's concrete instances `valueToColor 5 = valueToColor 1`
and `valueToColor (-5) = valueToColor (-1)`. -/
theorem valueToColor_clamps_witness :
    valueToColor 5 = valueToColor 1 ∧ valueToColor (-5) = valueToColor (-1) :=
  ⟨(valueToColor_clamps 5).1 (by norm_num), (valueToColor_clamps (-5)).2 (by norm_num)⟩

/-- C4: `calculateYlm 0 0 theta phi` is the constant `1 / sqrt (4 * pi)`,
independent of `theta` and `phi`. -/
theorem ylm_zero_zero_constant (theta phi : ℝ) :
    calculateYlm 0 0 theta phi = 1 / Real.sqrt (4 * Real.pi) := by
  have hf : factorial 0 = 1 := by rw [factorial]; norm_num
  simp only [calculateYlm, calculateLegendreP]
  norm_num [hf]

/-- C6: for `l ≥ 0` and `|m| > l` the evaluator stays total and returns `0`:
the factorial helper applied to the negative argument `l - |m|` returns `1`
through its `n ≤ 1` base case, and `calculateYlm l m theta phi = 0`. -/
theorem ylm_out_of_range (l m : ℤ) (theta phi : ℝ) (hl : 0 ≤ l) (hm : l < |m|) :
    factorial (l - |m|) = 1 ∧ calculateYlm l m theta phi = 0 := by
  have hf : factorial (l - |m|) = 1 := by rw [factorial, if_pos (by omega)]
  refine ⟨hf, ?_⟩
  have hlp : calculateLegendreP l |m| (Real.cos theta) = 0 := by
    rw [calculateLegendreP, if_pos (Or.inr hm)]
  simp only [calculateYlm, hlp]
  ring

/-- Witness for C6 at `l = 1`, `m = 2`, `theta = 0`, `phi = 0`. -/
theorem ylm_out_of_range_witness :
    (0 : ℤ) ≤ 1 ∧ (1 : ℤ) < |(2 : ℤ)| ∧
      (factorial (1 - |(2 : ℤ)|) = 1 ∧ calculateYlm 1 2 0 0 = 0) :=
  ⟨by decide, by decide, ylm_out_of_range 1 2 0 0 (by decide) (by decide)⟩

/-- Seed correctness: for `m ≥ 0` the call with `l = m` returns the first
component of the seed loop after `m` iterations. -/
theorem calculateLegendreP_seed (m : ℤ) (x : ℝ) (hm : 0 ≤ m) :
    calculateLegendreP m m x =
      (pmmAux (Real.sqrt ((1 - x) * (1 + x))) m.toNat).1 := by
  rcases eq_or_lt_of_le hm with h | h
  · rw [← h]
    simp [calculateLegendreP, pmmAux]
  · simp only [calculateLegendreP]
    rw [if_neg (by omega), if_neg (by omega)]
    simp

/-- First-step correctness: for `m ≥ 0` the call with `l = m + 1` returns
`x * (2*m + 1) * P_m^m`. -/
theorem calculateLegendreP_seed_succ (m : ℤ) (x : ℝ) (hm : 0 ≤ m) :
    calculateLegendreP (m + 1) m x =
      x * (2 * (m : ℝ) + 1) * (pmmAux (Real.sqrt ((1 - x) * (1 + x))) m.toNat).1 := by
  simp only [calculateLegendreP]
  rw [if_neg (by omega), if_neg (by omega), if_neg (by omega)]
  simp

/-- Loop invariant of the upward recurrence: after `k` iterations the state
holds the values of `calculateLegendreP` at degrees `m + k` and `m + 1 + k`. -/
theorem legendreLoop_spec (m : ℤ) (x : ℝ) (hm : 0 ≤ m) (k : ℕ) :
    (legendreLoop x (m : ℝ) (legendreInit m x) k).1 = calculateLegendreP (m + k) m x ∧
      (legendreLoop x (m : ℝ) (legendreInit m x) k).2.1 =
        calculateLegendreP (m + 1 + k) m x := by
  induction k with
  | zero =>
    simp only [legendreLoop, Nat.cast_zero, add_zero]
    exact ⟨(calculateLegendreP_seed m x hm).symm,
      (calculateLegendreP_seed_succ m x hm).symm⟩
  | succ k ih =>
    obtain ⟨h1, h2⟩ := ih
    have hcast : m + 1 + (k : ℤ) = m + ((k : ℕ) + 1 : ℕ) := by push_cast; ring
    constructor
    · have hfst : (legendreLoop x (m : ℝ) (legendreInit m x) (k + 1)).1 =
          (legendreLoop x (m : ℝ) (legendreInit m x) k).2.1 := by
        simp [legendreLoop]
      rw [hfst, h2, hcast]
    · rw [calculateLegendreP_eq_loop (m + 1 + ((k : ℕ) + 1 : ℕ)) m x hm (by push_cast; omega)]
      have hk : (m + 1 + ((k : ℕ) + 1 : ℕ) - m - 1).toNat = k + 1 := by push_cast; omega
      rw [hk]
      simp [legendreLoop]

/-- C1: for every integer `m ≥ 0`, every integer `l ≥ m + 2` and every real
`x`, `calculateLegendreP` satisfies the three-term recurrence
`P_l^m = (x*(2l-1)*P_{l-1}^m - (l+m-1)*P_{l-2}^m) / (l-m)`. -/
theorem legendreP_recurrence (l m : ℤ) (x : ℝ) (hm : 0 ≤ m) (hl : m + 2 ≤ l) :
    calculateLegendreP l m x =
      (x * (2 * (l : ℝ) - 1) * calculateLegendreP (l - 1) m x -
        ((l : ℝ) + (m : ℝ) - 1) * calculateLegendreP (l - 2) m x) /
        ((l : ℝ) - (m : ℝ)) := by
  obtain ⟨k, rfl⟩ : ∃ k : ℕ, l = m + 2 + k := ⟨(l - m - 2).toNat, by omega⟩
  rw [calculateLegendreP_eq_loop _ _ _ hm hl]
  have hk : (m + 2 + (k : ℤ) - m - 1).toNat = k + 1 := by omega
  rw [hk]
  have h1 := (legendreLoop_spec m x hm k).1
  have h2 := (legendreLoop_spec m x hm k).2
  have e1 : m + 2 + (k : ℤ) - 1 = m + 1 + k := by ring
  have e2 : m + 2 + (k : ℤ) - 2 = m + k := by ring
  rw [e1, e2, ← h1, ← h2]
  simp only [legendreLoop]
  push_cast
  ring

/-- Witness for C1 at `l = 2`, `m = 0`, `x = 1`. -/
theorem legendreP_recurrence_witness :
    (0 : ℤ) ≤ 0 ∧ (0 : ℤ) + 2 ≤ 2 ∧
      calculateLegendreP 2 0 1 =
        (1 * (2 * ((2 : ℤ) : ℝ) - 1) * calculateLegendreP (2 - 1) 0 1 -
          (((2 : ℤ) : ℝ) + ((0 : ℤ) : ℝ) - 1) * calculateLegendreP (2 - 2) 0 1) /
          (((2 : ℤ) : ℝ) - ((0 : ℤ) : ℝ)) :=
  ⟨by decide, by decide, legendreP_recurrence 2 0 1 (by decide) (by decide)⟩

/-- At `x = 1` with `m = 0` the loop state stays at `(1, 1, _)`. -/
theorem legendreLoop_one (k : ℕ) :
    (legendreLoop 1 0 (1, 1, 0) k).1 = 1 ∧ (legendreLoop 1 0 (1, 1, 0) k).2.1 = 1 := by
  induction k with
  | zero => exact ⟨rfl, rfl⟩
  | succ k ih =>
    obtain ⟨h1, h2⟩ := ih
    have hk : (0 : ℝ) + 2 + (k : ℝ) - 0 ≠ 0 := by
      have hk0 : (0 : ℝ) ≤ (k : ℝ) := Nat.cast_nonneg k
      intro hc
      linarith
    constructor
    · simp [legendreLoop, h2]
    · simp only [legendreLoop, h1, h2]
      rw [div_eq_one_iff_eq hk]
      ring

/-- C3: for every integer `l ≥ 0`, `calculateLegendreP l 0 1 = 1`. -/
theorem legendreP_at_one (l : ℤ) (hl : 0 ≤ l) : calculateLegendreP l 0 1 = 1 := by
  rcases eq_or_lt_of_le hl with h | h
  · rw [← h]
    simp [calculateLegendreP]
  · obtain ⟨k, rfl⟩ : ∃ k : ℕ, l = 0 + 1 + k := ⟨(l - 1).toNat, by omega⟩
    have hinit : legendreInit 0 1 = (1, 1, 0) := by
      norm_num [legendreInit, pmmAux]
    have h2 := (legendreLoop_spec 0 1 le_rfl k).2
    rw [hinit] at h2
    simp only [Int.cast_zero] at h2
    rw [← h2]
    exact (legendreLoop_one k).2

/-- Witness for C3 at `l = 5`. -/
theorem legendreP_at_one_witness : (0 : ℤ) ≤ 5 ∧ calculateLegendreP 5 0 1 = 1 :=
  ⟨by decide, legendreP_at_one 5 (by decide)⟩

/-- Product form of the seed loop: after `n` iterations `fact = 2n + 1` and
`pmm` is the product of the factors `-(2i+1) * somx2` for `i < n`. -/
theorem pmmAux_spec (s : ℝ) (n : ℕ) :
    (pmmAux s n).2 = 2 * n + 1 ∧
      (pmmAux s n).1 = ∏ i ∈ Finset.range n, (-(2 * (i : ℝ) + 1) * s) := by
  induction n with
  | zero => exact ⟨by simp [pmmAux], by simp [pmmAux]⟩
  | succ n ih =>
    obtain ⟨h2, h1⟩ := ih
    refine ⟨?_, ?_⟩
    · simp only [pmmAux, h2]
      push_cast
      ring
    · simp only [pmmAux, h1, h2, Finset.prod_range_succ]

/-- Reindexing: a product over the integer interval `[1, n]` equals the
corresponding product over `range n` shifted by one. -/
theorem prod_Icc_one_int (n : ℕ) (f : ℤ → ℝ) :
    ∏ i ∈ Finset.Icc (1 : ℤ) (n : ℤ), f i =
      ∏ i ∈ Finset.range n, f ((i : ℤ) + 1) := by
  induction n with
  | zero => simp
  | succ n ih =>
    have hins : Finset.Icc (1 : ℤ) ((n + 1 : ℕ) : ℤ) =
        insert ((n : ℤ) + 1) (Finset.Icc (1 : ℤ) (n : ℤ)) := by
      ext j
      simp only [Finset.mem_Icc, Finset.mem_insert]
      push_cast
      omega
    have hnot : ((n : ℤ) + 1) ∉ Finset.Icc (1 : ℤ) (n : ℤ) := by
      simp [Finset.mem_Icc]
    rw [hins, Finset.prod_insert hnot, ih, Finset.prod_range_succ, mul_comm]

/-- C2: for `m ≥ 1` and `x` in `[-1, 1]`, the seed value returned by
`calculateLegendreP m m x` is `(∏ i=1..m, -(2i-1)) * sqrt(1-x^2)^m`. -/
theorem legendreP_seed_product (m : ℤ) (x : ℝ) (hm : 1 ≤ m)
    (hx1 : -1 ≤ x) (hx2 : x ≤ 1) :
    calculateLegendreP m m x =
      (∏ i ∈ Finset.Icc (1 : ℤ) m, -(2 * (i : ℝ) - 1)) *
        Real.sqrt (1 - x ^ 2) ^ m.toNat := by
  rw [calculateLegendreP_seed m x (by omega)]
  have hsx : (1 - x) * (1 + x) = 1 - x ^ 2 := by ring
  rw [hsx, (pmmAux_spec (Real.sqrt (1 - x ^ 2)) m.toNat).2]
  rw [Finset.prod_mul_distrib, Finset.prod_const, Finset.card_range]
  congr 1
  obtain ⟨n, rfl⟩ : ∃ n : ℕ, m = (n : ℤ) := ⟨m.toNat, by omega⟩
  rw [prod_Icc_one_int n (fun i => -(2 * (i : ℝ) - 1))]
  have hn : ((n : ℤ)).toNat = n := by omega
  rw [hn]
  apply Finset.prod_congr rfl
  intro i _
  push_cast
  ring

/-- Witness for C2 at `m = 1`, `x = 1/2`: the spec's seed-step instance
`legendreP(1, 1, 0.5) = -sqrt(0.75)`. -/
theorem legendreP_seed_product_witness :
    calculateLegendreP 1 1 (1/2) = -Real.sqrt 0.75 := by
  have h := legendreP_seed_product 1 (1/2) (by norm_num) (by norm_num) (by norm_num)
  rw [show Finset.Icc (1 : ℤ) 1 = {1} from Finset.Icc_self 1,
    Finset.prod_singleton] at h
  norm_num at h
  have h34 : Real.sqrt 0.75 = Real.sqrt 3 / Real.sqrt 4 := by
    rw [show (0.75 : ℝ) = 3 / 4 by norm_num]
    rw [Real.sqrt_div (by norm_num : (0:ℝ) ≤ 3)]
  rw [h34]
  exact h

/-- Shared helper: negating the order multiplies the value by `(-1)^m`
(`cos(-m*phi) = cos(m*phi)`, the normalisation and the Legendre factor use
`|m|`, and the sign factor fires only for negative order). -/
theorem calculateYlm_neg_order (l m : ℤ) (theta phi : ℝ) (hm : 0 ≤ m)
    (hml : m ≤ l) :
    calculateYlm l (-m) theta phi = (-1 : ℝ) ^ m * calculateYlm l m theta phi := by
  rcases eq_or_lt_of_le hm with h | h
  · rw [← h]
    norm_num
  · have habs : |(-m)| = m := by rw [abs_neg, abs_of_nonneg hm]
    have habs2 : |m| = m := abs_of_nonneg hm
    simp only [calculateYlm, habs, habs2]
    rw [if_pos (by omega : -m < 0), if_neg (by omega : ¬m < 0)]
    rw [Int.cast_neg, neg_mul, Real.cos_neg]
    rcases Int.even_or_odd m with he | ho
    · rw [if_pos (Int.even_iff.mp he), he.neg_one_zpow]
      ring
    · have h1 : m % 2 = 1 := Int.odd_iff.mp ho
      rw [if_neg (by omega : ¬(m % 2 = 0)), ho.neg_one_zpow]
      ring

/-- C10: for every `l ≥ 0` and `0 ≤ m ≤ l` and all angles,
`calculateYlm l (-m) theta phi = (-1)^m * calculateYlm l m theta phi`. -/
theorem ylm_neg_order_symmetry (l m : ℤ) (theta phi : ℝ) (hl : 0 ≤ l)
    (hm : 0 ≤ m) (hml : m ≤ l) :
    calculateYlm l (-m) theta phi = (-1 : ℝ) ^ m * calculateYlm l m theta phi :=
  calculateYlm_neg_order l m theta phi hm hml

/-- Witness for C10 at `l = 2`, `m = 1`, `theta = 0`, `phi = 0`. -/
theorem ylm_neg_order_symmetry_witness :
    calculateYlm 2 (-1) 0 0 = (-1 : ℝ) ^ (1 : ℤ) * calculateYlm 2 1 0 0 :=
  ylm_neg_order_symmetry 2 1 0 0 (by decide) (by decide) (by decide)

/-- C5 (amended): at `l = 2` the values at orders `1` and `-1` are negatives of
each other for every `(theta, phi)`: the sign factor `(-1)^1 = -1` fires for
`m = -1` while the cosine factor is unchanged, so the two values agree only up
to sign, not on the nose. -/
theorem ylm_two_one_vs_neg_one (theta phi : ℝ) :
    calculateYlm 2 (-1) theta phi = -calculateYlm 2 1 theta phi := by
  have h := calculateYlm_neg_order 2 1 theta phi (by omega) (by omega)
  simpa using h

/-- Counterexample to C5 as stated: at `theta = pi/3`, `phi = 0` the two
values differ (`Y(2,1)` is a nonzero number and `Y(2,-1)` is its negative). -/
theorem ylm_two_one_ne_two_neg_one :
    calculateYlm 2 1 (Real.pi / 3) 0 ≠ calculateYlm 2 (-1) (Real.pi / 3) 0 := by
  have hf1 : factorial 1 = 1 := by rw [factorial]; norm_num
  have hf2 : factorial 2 = 2 := by rw [factorial, if_neg (by omega)]; norm_num [hf1]
  have hf3 : factorial 3 = 6 := by rw [factorial, if_neg (by omega)]; norm_num [hf2]
  have hlp : calculateLegendreP 2 1 (1/2) = 1/2 * 3 * -Real.sqrt (3/4) := by
    rw [calculateLegendreP]
    norm_num [pmmAux]
  have hval : calculateYlm 2 1 (Real.pi / 3) 0 < 0 := by
    simp only [calculateYlm]
    norm_num [Real.cos_pi_div_three, Real.cos_zero, hf1, hf3, hlp]
    positivity
  have hneg : calculateYlm 2 (-1) (Real.pi / 3) 0 = -calculateYlm 2 1 (Real.pi / 3) 0 := by
    have h := calculateYlm_neg_order 2 1 (Real.pi / 3) 0 (by omega) (by omega)
    simpa using h
  intro h
  rw [hneg] at h
  linarith
